import Mathlib

/-!
Verification of the git-json-api repository core.

The development shallowly embeds the JavaScript sources:
  * `src/cache.js`  — `Json`, assoc-list field maps, lodash-style `lget` and
    `lset`, `Cache`, `buildData`, `Cache.update`, `Cache.getObject`,
    `Cache.getFiles`;
  * `src/repo.js` — a git state record (`GitState`) with the commit store,
    remote-tracking refs, the remote side, and explicit oracles for the
    external git primitives (merge outcome, push application, tree writing),
    plus `getCommitByVersion`, `getCommitForUpdateBranch`, `writeFiles`,
    `commitAndMerge`, `pushHeadToOrigin`, `Repo.getData`, `Repo.replacePath`.

Stateful code is modelled by explicit state passing; every repository
operation additionally returns the list of observable events it performed
(lock, fetch, resolve, rebuild, push), so temporal claims can be read off the
event trace.
-/

namespace GitJsonApi

/-- JSON5 values as parsed by `JSON5.parse` in `cache.js`.  Objects are
ordered field lists, mirroring JavaScript property insertion order. -/
inductive Json where
  | null : Json
  | bool (b : Bool) : Json
  | num (n : Int) : Json
  | str (s : String) : Json
  | arr (items : List Json) : Json
  | obj (fields : List (String × Json)) : Json

/-- First-match lookup in an ordered key-value list, the reading semantics of
a JavaScript object (which can hold each key at most once). -/
def alook {α : Type} : List (String × α) → String → Option α
  | [], _ => none
  | (k', v') :: rest, k => if k' = k then some v' else alook rest k

/-- JavaScript property assignment `o[k] = v` on an ordered key-value list:
an existing key is updated in place, a new key is appended at the end. -/
def upsert {α : Type} : List (String × α) → String → α → List (String × α)
  | [], k, v => [(k, v)]
  | (k', v') :: rest, k, v =>
      if k' = k then (k, v) :: rest else (k', v') :: upsert rest k v

/-- Split a character list at every occurrence of `sep`; always returns at
least one (possibly empty) group, like JavaScript `String.prototype.split`
with a single-character separator. -/
def splitOnChar (sep : Char) : List Char → List (List Char)
  | [] => [[]]
  | c :: rest =>
      let r := splitOnChar sep rest
      if c = sep then [] :: r
      else
        match r with
        | [] => [[c]]
        | grp :: rest' => (c :: grp) :: rest'

/-- `path.split("/")` from `cache.js`. -/
def splitPath (p : String) : List String :=
  (splitOnChar '/' p.toList).map (fun cs => String.mk cs)

/-- JavaScript `String.prototype.startsWith`: the characters of `pre` are a
prefix of the characters of `s`. -/
def jsStartsWith (s pre : String) : Bool := pre.toList.isPrefixOf s.toList

/-- The child value lodash `set` walks into at an intermediate path segment:
an existing plain object is kept, anything else (a missing key or a
non-object) is replaced by a fresh empty object.  (For an index-like key
lodash would create an array instead of an object; an array built that way is
addressed by the same path segments, so the object form is used for both.) -/
def descendable : Option Json → Json
  | some (.obj fs) => .obj fs
  | _ => .obj []

/-- lodash `get(o, path)` as used by `Cache.getObject`: follow the path
segments through nested object fields, `none` when a segment is absent or the
current value has no fields. -/
def lget : Json → List String → Option Json
  | o, [] => some o
  | .obj fs, k :: rest =>
      match alook fs k with
      | some c => lget c rest
      | none => none
  | _, _ :: _ => none

/-- lodash `set(o, path, v)` as used by `Cache.buildData`: walk the path,
keeping existing objects and replacing non-objects by empty objects along the
way, and assign `v` at the final segment.  A non-object root is returned
unchanged, as lodash does. -/
def lset : Json → List String → Json → Json
  | o, [], _ => o
  | .obj fs, [k], v => .obj (upsert fs k v)
  | .obj fs, k :: k2 :: rest, v =>
      .obj (upsert fs k (lset (descendable (alook fs k)) (k2 :: rest) v))
  | o, _ :: _, _ => o

/-! ## Snapshot builder and cache (`cache.js`) -/

/-- Errors raised while building a snapshot.  The source raises only
`malformedDocument` (a `JSON5.parse` throw inside `buildData`); the
`pathConflict` constructor exists so the specification sentence that claims
such an error can be stated, and is proved to never occur. -/
inductive BuildError where
  | malformedDocument (path : String)
  | pathConflict (path : String)
deriving DecidableEq, Repr

/-- One walked tree entry of a commit, after stripping the `.json` extension:
its store path and the result of `JSON5.parse` on its blob content. -/
def RawEntry : Type := String × Except String Json

/-- The loop body of `Cache.buildData`: `files[path] = fileData` followed by
`set(object, path.split("/"), fileData)`, aborting on a parse failure. -/
def buildData : List RawEntry → Json → List (String × Json) →
    Except BuildError (Json × List (String × Json))
  | [], o, fs => .ok (o, fs)
  | (p, .error _) :: _, _, _ => .error (.malformedDocument p)
  | (p, .ok v) :: rest, o, fs =>
      buildData rest (lset o (splitPath p) v) (upsert fs p v)

/-- `Cache.buildData` started on the empty object and empty file map. -/
def buildDataTop (entries : List RawEntry) :
    Except BuildError (Json × List (String × Json)) :=
  buildData entries (.obj []) []

/-- The nested object produced from already-parsed entries. -/
def buildObj (entries : List (String × Json)) : Json :=
  entries.foldl (fun o e => lset o (splitPath e.1) e.2) (.obj [])

/-- The flat path-to-document map produced from already-parsed entries. -/
def buildFiles (entries : List (String × Json)) : List (String × Json) :=
  entries.foldl (fun fs e => upsert fs e.1 e.2) []

/-- The in-memory snapshot cache of `cache.js`. -/
structure Cache where
  commitHash : String
  object : Json
  files : List (String × Json)

/-- The constructor state of `Cache`. -/
def Cache.initial : Cache :=
  { commitHash := "0000000000000000", object := .obj [], files := [] }

/-- `Cache.update(commit)`: rebuild the snapshot only when the commit hash
differs from the cached one.  The returned flag records whether a rebuild
happened.  `entries` are the parsed document entries of the commit's tree. -/
def Cache.update (c : Cache) (sha : String) (entries : List (String × Json)) :
    Cache × Bool :=
  if sha ≠ c.commitHash then
    ({ commitHash := sha, object := buildObj entries,
       files := buildFiles entries }, true)
  else (c, false)

/-- `Cache.getObject(path)`: the whole nested object for an empty path,
otherwise a lodash `get` along the path segments (`none` is JavaScript
`undefined`). -/
def Cache.getObject (c : Cache) (path : String) : Option Json :=
  if path ≠ "" then lget c.object (splitPath path) else some c.object

/-- `Cache.getFiles(path)`: the whole flat map for an empty path, otherwise
the entries whose full path starts with `path` (lodash `pickBy` with
`file.startsWith(path)`), keyed by their full paths. -/
def Cache.getFiles (c : Cache) (path : String) : List (String × Json) :=
  if path ≠ "" then c.files.filter (fun e => jsStartsWith e.1 path) else c.files

/-! ## Git state (`repo.js`)

The underlying version-control engine is external to the repository; its
primitives are modelled as explicit state plus oracle fields for the results
that depend on data outside the model (merge outcomes, whether the remote
actually applied a push, the tree oid produced by staging written files, and
the sha chosen for a newly created commit). -/

/-- An immutable commit record: its tree oid and parent commit shas, in
order. -/
structure CommitData where
  tree : String
  parents : List String
deriving DecidableEq, Repr

/-- Errors surfaced by `repo.js` operations: either an `Error` thrown by the
source with the given message, or a rejection coming from a nodegit primitive
(fetch, reference lookup), identified by the failing operation. -/
inductive RepoError where
  | thrown (message : String)
  | libError (op : String)
deriving DecidableEq, Repr

/-- Observable events of one repository operation, in order. -/
inductive Ev where
  | lock
  | unlock
  | fetch
  | resolve (token : String)
  | rebuild
  | push (refspec : String)
deriving DecidableEq, Repr

/-- The state of the local checkout, its remote, and the oracles for the
external git primitives. -/
structure GitState where
  /-- The object store: sha to commit data, most recently created first. -/
  commits : List (String × CommitData)
  /-- Local remote-tracking refs `refs/remotes/origin/<branch>`. -/
  remoteRefs : List (String × String)
  /-- The remote's branches `refs/heads/<branch>`. -/
  originHeads : List (String × String)
  /-- The commit `HEAD` currently resolves to. -/
  head : String
  /-- How many commits this state has created, indexing `shaSupply`. -/
  counter : Nat
  /-- Oracle: the distinct content-address shas of newly created commits. -/
  shaSupply : Nat → String
  /-- Oracle: whether `repo.fetch("origin")` succeeds. -/
  fetchOk : Bool
  /-- Oracle: whether the remote actually applies a push (the push primitive
  reports success either way). -/
  pushApplies : Bool
  /-- Oracle: the tree oid produced by `index.writeTree()` for this write. -/
  writeTreeResult : String
  /-- Oracle: `Git.Merge.commits(repo, branchCommit, commit)` followed by
  `index.writeTreeTo(repo)` — `none` when the merge index has conflicts,
  otherwise the merged tree oid. -/
  mergeTreeResult : String → String → Option String
  /-- Oracle: the parsed `.json` entries of a commit's tree, as collected by
  `Cache.getFileEntries` (paths with the extension stripped). -/
  treeEntries : String → List (String × Json)

/-- The sha of the next commit this state creates. -/
def freshSha (g : GitState) : String := g.shaSupply g.counter

/-- `repo.createCommit("HEAD", ...)`: record the new commit and move `HEAD`
to it. -/
def addCommit (g : GitState) (sha tree : String) (parents : List String) :
    GitState :=
  { g with commits := (sha, ⟨tree, parents⟩) :: g.commits,
           head := sha, counter := g.counter + 1 }

/-- Fuel-bounded walk of the history reachable from `c` (the source's
`revWalk` loop), `true` when `anc` is found.  The walk includes `c` itself. -/
def isAncestorAux (commits : List (String × CommitData)) :
    Nat → String → String → Bool
  | 0, _, _ => false
  | fuel + 1, anc, c =>
      c = anc ||
      match alook commits c with
      | some cd => cd.parents.any (fun p => isAncestorAux commits fuel anc p)
      | none => false

/-- `isAncestor(repo, ancestorCommit, commit)` from `repo.js`. -/
def isAncestor (g : GitState) (anc c : String) : Bool :=
  isAncestorAux g.commits (g.commits.length + 1) anc c

/-- The remote-tracking update a successful fetch applies: every remote
branch head updates the corresponding remote-tracking ref. -/
def applyFetch (g : GitState) : GitState :=
  { g with
    remoteRefs := g.originHeads.foldl
      (fun acc kv => upsert acc kv.1 kv.2) g.remoteRefs }

/-- `repo.fetch("origin")`. -/
def fetchOrigin (g : GitState) : Except RepoError GitState :=
  if g.fetchOk then .ok (applyFetch g) else .error (.libError "fetch origin")

/-- The single-quoting done by the template literal in the error message of
`getCommitByVersion`. -/
def sQuote (s : String) : String := "'" ++ s ++ "'"

/-- `getCommitByVersion(repo, version)`: try the token as a remote branch
ref, fall back to a direct commit lookup, and fail carrying the token. -/
def getCommitByVersion (g : GitState) (version : String) :
    Except RepoError String :=
  match alook g.remoteRefs version with
  | some sha => .ok sha
  | none =>
      match alook g.commits version with
      | some _ => .ok version
      | none =>
          .error (.thrown ("Branch or commit not found: " ++ sQuote version))

/-- `getCommitForUpdateBranch(repo, reference)`: only a remote branch ref,
with a fixed error message. -/
def getCommitForUpdateBranch (g : GitState) (reference : String) :
    Except RepoError String :=
  match alook g.remoteRefs reference with
  | some sha => .ok sha
  | none => .error (.thrown "Invalid or missing update branch")

/-- `writeFiles(repo, parentCommit, path, files)`: hard-reset the checkout to
the parent commit (moving `HEAD` there), replace the files under the path on
disk, stage everything and return the staged tree's oid.  The filesystem
contents live outside the model; the produced tree oid is the
`writeTreeResult` oracle. -/
def writeFiles (g : GitState) (parentSha : String) : GitState × String :=
  ({ g with head := parentSha }, g.writeTreeResult)

/-- `commitAndMerge(repo, parentCommit, branchCommit, treeOid, message)`:
commit the new tree with the parent commit as sole parent; if the update
branch commit is already an ancestor of the new commit return it, otherwise
merge (failing on conflicts) and commit the merged tree with the new commit
as first and the branch commit as second parent. -/
def commitAndMerge (g : GitState) (parentSha branchSha treeOid : String)
    (_message : String) : Except RepoError (String × GitState) :=
  let commitSha := freshSha g
  let g1 := addCommit g commitSha treeOid [parentSha]
  if isAncestor g1 branchSha commitSha then
    .ok (commitSha, g1)
  else
    match g1.mergeTreeResult branchSha commitSha with
    | none => .error (.thrown "Merge conflict")
    | some mergeTree =>
        let mergeSha := freshSha g1
        .ok (mergeSha, addCommit g1 mergeSha mergeTree [commitSha, branchSha])

/-- The push half of `pushHeadToOrigin(repo, branch)`: the state after
`remote.push("HEAD:refs/heads/<branch>", null)`.  The primitive reports
success even when the remote did not apply the update; an applied push moves
the remote's branch and the local remote-tracking ref to `HEAD`. -/
def postPushState (g : GitState) (branch : String) : GitState :=
  if g.pushApplies then
    { g with originHeads := upsert g.originHeads branch g.head,
             remoteRefs := upsert g.remoteRefs branch g.head }
  else g

/-- `pushHeadToOrigin(repo, branch)`: push (see `postPushState`), then verify
by re-resolving `HEAD` and `refs/remotes/origin/<branch>` and fail when they
differ.  Always returns the post-push state alongside the verdict. -/
def pushHeadToOrigin (g : GitState) (branch : String) :
    GitState × Option RepoError :=
  let g1 := postPushState g branch
  match alook g1.remoteRefs branch with
  | none => (g1, some (.libError ("refs/remotes/origin/" ++ branch)))
  | some remoteSha =>
      if g1.head = remoteSha then (g1, none)
      else (g1, some (.thrown "Push to remote failed"))

/-! ## The repository operations (`Repo` in `repo.js`) -/

/-- A `Repo` instance's mutable state: the git checkout and the snapshot
cache.  (The lock itself carries no data; lock and unlock show up as trace
events.) -/
structure RepoState where
  git : GitState
  cache : Cache

/-- The payload of a successful `getData`. -/
inductive DataOut where
  | object (value : Option Json)
  | files (entries : List (String × Json))

/-- `getData`'s return value. -/
structure ReadResult where
  commitHash : String
  data : DataOut

/-- JavaScript `updateBranch || parentVersion`: an absent (`undefined`) or
empty-string update branch falls back to the parent version token. -/
def jsOr (updateBranch : Option String) (parentVersion : String) : String :=
  match updateBranch with
  | some s => if s = "" then parentVersion else s
  | none => parentVersion

/-- The string a JavaScript template literal interpolates for the
`updateBranch` argument: `undefined` becomes the text `"undefined"`. -/
def jsTemplate (updateBranch : Option String) : String :=
  match updateBranch with
  | some s => s
  | none => "undefined"

/-- The part of `Repo.getData` that runs once the fetch has succeeded and
produced the checkout state `g1`: resolve the version token, update the
cache, unlock, and answer from the cache. -/
def getDataResolved (rst : RepoState) (g1 : GitState) (version path : String)
    (listFiles : Bool) : Except RepoError ReadResult × RepoState × List Ev :=
  match getCommitByVersion g1 version with
  | .error e =>
      (.error e, { rst with git := g1 },
       [.lock, .fetch, .resolve version, .unlock])
  | .ok sha =>
      let u := rst.cache.update sha (g1.treeEntries sha)
      (.ok { commitHash := u.1.commitHash,
             data := if listFiles then .files (u.1.getFiles path)
                     else .object (u.1.getObject path) },
       { git := g1, cache := u.1 },
       [.lock, .fetch, .resolve version] ++
         (if u.2 then [.rebuild] else []) ++ [.unlock])

/-- `Repo.getData(version, path, listFiles)`: lock, fetch from origin, then
`getDataResolved`.  Any failure unlocks and rethrows.  The third component is
the event trace. -/
def getData (rst : RepoState) (version path : String) (listFiles : Bool) :
    Except RepoError ReadResult × RepoState × List Ev :=
  match fetchOrigin rst.git with
  | .error e => (.error e, rst, [.lock, .fetch, .unlock])
  | .ok g1 => getDataResolved rst g1 version path listFiles

/-- `Repo.replacePath(parentVersion, updateBranch, path, files)`: lock,
resolve the parent version and the update branch (the latter falling back to
the parent version when absent), reset and write the files, commit and merge,
push `HEAD` to `refs/heads/` followed by the interpolated `updateBranch`
argument, and unlock.  Any failure unlocks and rethrows.  The written file
contents affect only the `writeTreeResult` oracle and are not tracked. -/
def replacePath (rst : RepoState) (parentVersion : String)
    (updateBranch : Option String) (targetPath : String) :
    Except RepoError String × RepoState × List Ev :=
  let ubRef := jsOr updateBranch parentVersion
  let pushBranch := jsTemplate updateBranch
  match getCommitByVersion rst.git parentVersion with
  | .error e => (.error e, rst, [.lock, .resolve parentVersion, .unlock])
  | .ok parentSha =>
  match getCommitForUpdateBranch rst.git ubRef with
  | .error e =>
      (.error e, rst,
       [.lock, .resolve parentVersion, .resolve ubRef, .unlock])
  | .ok branchSha =>
  let (g1, treeOid) := writeFiles rst.git parentSha
  match commitAndMerge g1 parentSha branchSha treeOid
      ("Update " ++ sQuote ("/" ++ targetPath)) with
  | .error e =>
      (.error e, { rst with git := g1 },
       [.lock, .resolve parentVersion, .resolve ubRef, .unlock])
  | .ok (resultSha, g2) =>
  match pushHeadToOrigin g2 pushBranch with
  | (g3, some e) =>
      (.error e, { rst with git := g3 },
       [.lock, .resolve parentVersion, .resolve ubRef,
        .push ("HEAD:refs/heads/" ++ pushBranch), .unlock])
  | (g3, none) =>
      (.ok resultSha, { rst with git := g3 },
       [.lock, .resolve parentVersion, .resolve ubRef,
        .push ("HEAD:refs/heads/" ++ pushBranch), .unlock])

/-- The parents recorded for `sha` in `g`, when it exists. -/
def parentsOf (g : GitState) (sha : String) : Option (List String) :=
  (alook g.commits sha).map CommitData.parents

/-- Option alternative: the first operand unless it is `none`. -/
def orO {α : Type} : Option α → Option α → Option α
  | some x, _ => some x
  | none, b => b

/-- Last-match lookup: the value of the final occurrence of `key`. -/
def alookLast {α : Type} : List (String × α) → String → Option α
  | [], _ => none
  | (k, v) :: rest, key =>
      match alookLast rest key with
      | some x => some x
      | none => if k = key then some v else none

/-- `true` when no list in the argument is a prefix of another. -/
def pairwiseNoPrefix : List (List String) → Bool
  | [] => true
  | p :: rest =>
      rest.all (fun q => !(p.isPrefixOf q) && !(q.isPrefixOf p)) &&
        pairwiseNoPrefix rest

/-! ## Assoc-list lemmas -/

theorem alook_upsert_self {α : Type} (l : List (String × α)) (k : String)
    (v : α) : alook (upsert l k v) k = some v := by
  induction l with
  | nil => simp [alook, upsert]
  | cons e rest ih =>
      by_cases h : e.1 = k <;> simp [alook, upsert, h, ih]

theorem alook_upsert_ne {α : Type} (l : List (String × α)) (k k' : String)
    (v : α) (h : k' ≠ k) : alook (upsert l k v) k' = alook l k' := by
  induction l with
  | nil => simp [alook, upsert, h, Ne.symm h]
  | cons e rest ih =>
      by_cases he : e.1 = k
      · simp [alook, upsert, he, Ne.symm h]
      · simp only [upsert, he, if_false, alook]
        by_cases he' : e.1 = k' <;> simp [he', ih]

theorem alook_mem {α : Type} {l : List (String × α)} {k : String} {v : α}
    (h : alook l k = some v) : (k, v) ∈ l := by
  induction l with
  | nil => simp [alook] at h
  | cons e rest ih =>
      by_cases he : e.1 = k
      · simp only [alook, he, if_true, Option.some.injEq] at h
        subst h
        exact (he ▸ List.mem_cons_self e rest)
  -- keep the pair intact: `e = (e.1, e.2)` up to eta for structures
      · simp only [alook, he, if_false] at h
        exact List.mem_cons_of_mem _ (ih h)

theorem alook_none_of_forall_ne {α : Type} {l : List (String × α)}
    {k : String} (h : ∀ e ∈ l, e.1 ≠ k) : alook l k = none := by
  induction l with
  | nil => rfl
  | cons e rest ih =>
      simp only [alook, h e (List.mem_cons_self e rest), if_false]
      exact ih fun e' he' => h e' (List.mem_cons_of_mem _ he')

/-- A left fold of JavaScript property assignments, the shape used by
`buildFiles` and by fetch's remote-tracking update. -/
theorem alook_foldl_upsert {α : Type} (l : List (String × α)) :
    ∀ (acc : List (String × α)) (k : String),
      alook (l.foldl (fun a e => upsert a e.1 e.2) acc) k =
        orO (alook (l.foldl (fun a e => upsert a e.1 e.2) []) k) (alook acc k) := by
  induction l with
  | nil => intro acc k; rfl
  | cons e rest ih =>
      intro acc k
      simp only [List.foldl_cons]
      rw [ih (upsert acc e.1 e.2) k, ih (upsert [] e.1 e.2) k]
      by_cases hk : e.1 = k
      · subst hk
        cases hr : alook (rest.foldl (fun a e => upsert a e.1 e.2) []) e.1 <;>
          simp [orO, alook_upsert_self, alook, upsert]
      · rw [alook_upsert_ne _ _ _ _ (Ne.symm hk)]
        cases hr : alook (rest.foldl (fun a e => upsert a e.1 e.2) []) k <;>
          simp [orO, alook, upsert, hk, Ne.symm hk]

theorem alook_foldl_upsert_idem {α : Type} (l acc : List (String × α))
    (k : String) :
    alook ((l.foldl (fun a e => upsert a e.1 e.2)
        (l.foldl (fun a e => upsert a e.1 e.2) acc))) k =
      alook (l.foldl (fun a e => upsert a e.1 e.2) acc) k := by
  rw [alook_foldl_upsert, alook_foldl_upsert l acc]
  cases h : alook (l.foldl (fun a e => upsert a e.1 e.2) []) k <;> simp [orO]

theorem alookLast_eq_alook_of_nodup {α : Type} {l : List (String × α)}
    (h : (l.map Prod.fst).Nodup) (k : String) :
    alookLast l k = alook l k := by
  induction l with
  | nil => rfl
  | cons e rest ih =>
      simp only [List.map_cons, List.nodup_cons] at h
      rw [alookLast, ih h.2]
      cases hr : alook rest k with
      | some x =>
          have hmem : (k, x) ∈ rest := alook_mem hr
          have hk : e.1 ≠ k := by
            intro hk
            exact h.1 (hk ▸ List.mem_map_of_mem Prod.fst hmem)
          simp [alook, hk, hr]
      | none =>
          by_cases hk : e.1 = k <;> simp [alook, hk, hr]

theorem alook_buildFiles_of_nodup {entries : List (String × Json)}
    (h : (entries.map Prod.fst).Nodup) (k : String) :
    alook (buildFiles entries) k = alook entries k := by
  have hlast : ∀ (l : List (String × Json)) (k : String),
      alook (l.foldl (fun a e => upsert a e.1 e.2) []) k = alookLast l k := by
    intro l
    induction l with
    | nil => intro k; rfl
    | cons e rest ih =>
        intro k
        simp only [List.foldl_cons]
        rw [alook_foldl_upsert, ih k, alookLast]
        cases hr : alookLast rest k with
        | some x => simp [orO]
        | none =>
            by_cases hk : e.1 = k <;> simp [orO, alook, upsert, hk]
  rw [buildFiles, hlast, alookLast_eq_alook_of_nodup h]

/-! ## lodash get and set lemmas -/

theorem lset_obj (fs : List (String × Json)) (p : List String) (v : Json) :
    ∃ fs', lset (.obj fs) p v = .obj fs' := by
  match p with
  | [] => exact ⟨fs, rfl⟩
  | [k] => exact ⟨upsert fs k v, rfl⟩
  | k :: k2 :: rest =>
      exact ⟨upsert fs k (lset (descendable (alook fs k)) (k2 :: rest) v), rfl⟩

theorem lget_nil_not_obj (o : Json) (k : String) (p : List String)
    (h : ∀ fs, o ≠ .obj fs) : lget o (k :: p) = none := by
  cases o with
  | obj fs => exact absurd rfl (h fs)
  | null => rfl
  | bool b => rfl
  | num n => rfl
  | str s => rfl
  | arr items => rfl

/-- Reading back the path just written: lodash `get` after lodash `set`. -/
theorem lget_lset_self (p : List String) :
    ∀ (fs : List (String × Json)) (v : Json), p ≠ [] →
      lget (lset (.obj fs) p v) p = some v := by
  induction p with
  | nil => intro fs v h; exact absurd rfl h
  | cons k rest ih =>
      intro fs v _
      cases rest with
      | nil => simp [lset, lget, alook_upsert_self]
      | cons k2 rest2 =>
          simp only [lset, lget, alook_upsert_self]
          have : ∃ cfs, descendable (alook fs k) = .obj cfs := by
            cases h : alook fs k with
            | none => exact ⟨[], rfl⟩
            | some c =>
                cases c with
                | obj cfs => exact ⟨cfs, rfl⟩
                | null => exact ⟨[], rfl⟩
                | bool b => exact ⟨[], rfl⟩
                | num n => exact ⟨[], rfl⟩
                | str s => exact ⟨[], rfl⟩
                | arr items => exact ⟨[], rfl⟩
          obtain ⟨cfs, hc⟩ := this
          rw [hc]
          exact ih cfs v (by simp)

/-- Frame rule: a `set` along `q` does not change a `get` along a path `p`
that is not prefix-comparable with `q`. -/
theorem lget_lset_other (q : List String) :
    ∀ (o : Json) (p : List String) (v : Json),
      ¬ q <+: p → ¬ p <+: q → lget (lset o q v) p = lget o p := by
  induction q with
  | nil => intro o p v hq _; exact absurd List.nil_prefix hq
  | cons k q' ih =>
      intro o p v hq hp
      cases o with
      | obj fs =>
          cases p with
          | nil => exact absurd List.nil_prefix hp
          | cons k' p' =>
              by_cases hk : k = k'
              · subst hk
                have hq' : ¬ q' <+: p' := fun h => hq (List.cons_prefix_cons.2 ⟨rfl, h⟩)
                have hp' : ¬ p' <+: q' := fun h => hp (List.cons_prefix_cons.2 ⟨rfl, h⟩)
                have hp'ne : p' ≠ [] := fun h => hp' (h ▸ List.nil_prefix)
                cases q' with
                | nil => exact absurd List.nil_prefix hq'
                | cons q2 q'' =>
                    simp only [lset, lget, alook_upsert_self]
                    cases hc : alook fs k with
                    | some c =>
                        cases c with
                        | obj cfs =>
                            rw [show descendable (some (Json.obj cfs)) = Json.obj cfs from rfl,
                                ih (Json.obj cfs) p' v hq' hp']
                        | null =>
                            rw [show descendable (some Json.null) = Json.obj [] from rfl,
                                ih (Json.obj []) p' v hq' hp']
                            cases p' with
                            | nil => exact absurd rfl hp'ne
                            | cons a b => rfl
                        | bool b0 =>
                            rw [show descendable (some (Json.bool b0)) = Json.obj [] from rfl,
                                ih (Json.obj []) p' v hq' hp']
                            cases p' with
                            | nil => exact absurd rfl hp'ne
                            | cons a b => rfl
                        | num n =>
                            rw [show descendable (some (Json.num n)) = Json.obj [] from rfl,
                                ih (Json.obj []) p' v hq' hp']
                            cases p' with
                            | nil => exact absurd rfl hp'ne
                            | cons a b => rfl
                        | str s =>
                            rw [show descendable (some (Json.str s)) = Json.obj [] from rfl,
                                ih (Json.obj []) p' v hq' hp']
                            cases p' with
                            | nil => exact absurd rfl hp'ne
                            | cons a b => rfl
                        | arr items =>
                            rw [show descendable (some (Json.arr items)) = Json.obj [] from rfl,
                                ih (Json.obj []) p' v hq' hp']
                            cases p' with
                            | nil => exact absurd rfl hp'ne
                            | cons a b => rfl
                    | none =>
                        rw [show descendable (none : Option Json) = Json.obj [] from rfl,
                            ih (Json.obj []) p' v hq' hp']
                        cases p' with
                        | nil => exact absurd rfl hp'ne
                        | cons a b => rfl
              · cases q' with
                | nil =>
                    simp only [lset, lget]
                    rw [alook_upsert_ne fs k k' v (Ne.symm hk)]
                | cons q2 q'' =>
                    simp only [lset, lget]
                    rw [alook_upsert_ne fs k k' _ (Ne.symm hk)]
      | null => cases q' <;> rfl
      | bool b => cases q' <;> rfl
      | num n => cases q' <;> rfl
      | str s => cases q' <;> rfl
      | arr items => cases q' <;> rfl

/-! ## Snapshot builder lemmas -/

/-- The step function of `buildObj`. -/
def objStep (o : Json) (e : String × Json) : Json := lset o (splitPath e.1) e.2

theorem lget_foldl_other (l : List (String × Json)) :
    ∀ (o : Json) (p : List String),
      (∀ e ∈ l, ¬ splitPath e.1 <+: p ∧ ¬ p <+: splitPath e.1) →
      lget (l.foldl objStep o) p = lget o p := by
  induction l with
  | nil => intro o p _; rfl
  | cons e rest ih =>
      intro o p h
      have he := h e (List.mem_cons_self e rest)
      rw [List.foldl_cons,
          ih (objStep o e) p (fun e' he' => h e' (List.mem_cons_of_mem _ he')),
          show objStep o e = lset o (splitPath e.1) e.2 from rfl,
          lget_lset_other _ o p e.2 he.1 he.2]

theorem lget_foldl_mem (l : List (String × Json)) :
    ∀ (fs : List (String × Json)),
      List.Pairwise
        (fun a b => ¬ splitPath a.1 <+: splitPath b.1 ∧
                    ¬ splitPath b.1 <+: splitPath a.1) l →
      (∀ e ∈ l, splitPath e.1 ≠ []) →
      ∀ p v, (p, v) ∈ l →
        lget (l.foldl objStep (.obj fs)) (splitPath p) = some v := by
  induction l with
  | nil => intro fs _ _ p v h; cases h
  | cons e rest ih =>
      intro fs hpair hne p v hmem
      rw [List.pairwise_cons] at hpair
      rw [List.foldl_cons]
      cases List.mem_cons.1 hmem with
      | inl h =>
          subst h
          rw [lget_foldl_other rest (objStep (.obj fs) (p, v)) (splitPath p)
                (fun e' he' => ⟨(hpair.1 e' he').2, (hpair.1 e' he').1⟩)]
          exact lget_lset_self (splitPath p) fs v
            (hne (p, v) (List.mem_cons_self _ _))
      | inr h =>
          obtain ⟨fs', hfs'⟩ := lset_obj fs (splitPath e.1) e.2
          rw [show objStep (Json.obj fs) e = lset (.obj fs) (splitPath e.1) e.2 from rfl,
              hfs']
          exact ih fs' hpair.2
            (fun e' he' => hne e' (List.mem_cons_of_mem _ he')) p v h

theorem lget_foldl_origin (l : List (String × Json)) :
    ∀ (o : Json) (p : List String), lget o p = none →
      lget (l.foldl objStep o) p ≠ none →
      ∃ e ∈ l, splitPath e.1 <+: p ∨ p <+: splitPath e.1 := by
  induction l with
  | nil => intro o p h hne; rw [List.foldl_nil] at hne; exact absurd h hne
  | cons e rest ih =>
      intro o p h hne
      by_cases hrel : splitPath e.1 <+: p ∨ p <+: splitPath e.1
      · exact ⟨e, List.mem_cons_self e rest, hrel⟩
      · push_neg at hrel
        rw [List.foldl_cons] at hne
        have h' : lget (objStep o e) p = none := by
          rw [show objStep o e = lset o (splitPath e.1) e.2 from rfl,
              lget_lset_other _ o p e.2 hrel.1 hrel.2]
          exact h
        obtain ⟨e', he', hrel'⟩ := ih (objStep o e) p h' hne
        exact ⟨e', List.mem_cons_of_mem _ he', hrel'⟩

/-- `buildData` on entries that all parse is the pure fold pair. -/
theorem buildData_parsed (entries : List (String × Json)) :
    ∀ (o : Json) (fs : List (String × Json)),
      buildData (entries.map (fun e => (e.1, Except.ok e.2))) o fs =
        .ok (entries.foldl objStep o,
             entries.foldl (fun a e => upsert a e.1 e.2) fs) := by
  induction entries with
  | nil => intro o fs; rfl
  | cons e rest ih => intro o fs; exact ih _ _

theorem splitOnChar_ne_nil (sep : Char) (l : List Char) :
    splitOnChar sep l ≠ [] := by
  cases l with
  | nil => simp [splitOnChar]
  | cons c rest =>
      simp only [splitOnChar]
      by_cases h : c = sep
      · simp [h]
      · simp only [h, if_false]
        cases splitOnChar sep rest <;> simp

theorem splitPath_ne_nil (p : String) : splitPath p ≠ [] := by
  rw [splitPath]
  intro h
  exact splitOnChar_ne_nil '/' p.toList (List.map_eq_nil_iff.1 h)

theorem jsStartsWith_self (s : String) : jsStartsWith s s = true := by
  rw [jsStartsWith, List.isPrefixOf_iff_prefix]

theorem pairwiseNoPrefix_pairwise :
    ∀ {l : List (List String)}, pairwiseNoPrefix l = true →
      List.Pairwise (fun p q => ¬ p <+: q ∧ ¬ q <+: p) l := by
  intro l
  induction l with
  | nil => intro _; exact List.Pairwise.nil
  | cons p rest ih =>
      intro h
      rw [pairwiseNoPrefix, Bool.and_eq_true, List.all_eq_true] at h
      refine List.Pairwise.cons (fun q hq => ?_) (ih h.2)
      have := h.1 q hq
      rw [Bool.and_eq_true, Bool.not_eq_true', Bool.not_eq_true'] at this
      constructor
      · intro hpre
        rw [← List.isPrefixOf_iff_prefix] at hpre
        exact absurd hpre (by simp [this.1])
      · intro hpre
        rw [← List.isPrefixOf_iff_prefix] at hpre
        exact absurd hpre (by simp [this.2])

/-! ## Cache and fetch lemmas -/

theorem cacheUpdate_commitHash (c : Cache) (sha : String)
    (entries : List (String × Json)) :
    (c.update sha entries).1.commitHash = sha := by
  rw [Cache.update]
  by_cases h : sha ≠ c.commitHash
  · simp [h]
  · push_neg at h
    simp [h]

theorem cacheUpdate_same (c : Cache) (sha : String)
    (entries : List (String × Json)) (h : c.commitHash = sha) :
    c.update sha entries = (c, false) := by
  rw [Cache.update]
  simp [h]

theorem getData_fetchOk (rst : RepoState) (v p : String) (lf : Bool)
    (h : rst.git.fetchOk = true) :
    getData rst v p lf = getDataResolved rst (applyFetch rst.git) v p lf := by
  rw [getData, fetchOrigin, if_pos h]

theorem getData_fetchFail (rst : RepoState) (v p : String) (lf : Bool)
    (h : rst.git.fetchOk = false) :
    getData rst v p lf =
      (.error (.libError "fetch origin"), rst, [.lock, .fetch, .unlock]) := by
  rw [getData, fetchOrigin, if_neg (by simp [h])]

theorem getDataResolved_err (rst : RepoState) (g1 : GitState) (v p : String)
    (lf : Bool) (e : RepoError) (hv : getCommitByVersion g1 v = .error e) :
    getDataResolved rst g1 v p lf =
      (.error e, { rst with git := g1 },
       [.lock, .fetch, .resolve v, .unlock]) := by
  rw [getDataResolved, hv]

theorem getDataResolved_ok (rst : RepoState) (g1 : GitState) (v p : String)
    (lf : Bool) (sha : String) (hv : getCommitByVersion g1 v = .ok sha) :
    getDataResolved rst g1 v p lf =
      (.ok { commitHash := (rst.cache.update sha (g1.treeEntries sha)).1.commitHash,
             data := if lf then
                 .files ((rst.cache.update sha (g1.treeEntries sha)).1.getFiles p)
               else
                 .object ((rst.cache.update sha (g1.treeEntries sha)).1.getObject p) },
       { git := g1, cache := (rst.cache.update sha (g1.treeEntries sha)).1 },
       [.lock, .fetch, .resolve v] ++
         (if (rst.cache.update sha (g1.treeEntries sha)).2 then [.rebuild]
          else []) ++ [.unlock]) := by
  rw [getDataResolved, hv]

theorem applyFetch_remoteRefs_idem (g : GitState) (k : String) :
    alook (applyFetch (applyFetch g)).remoteRefs k =
      alook (applyFetch g).remoteRefs k := by
  show alook (g.originHeads.foldl (fun acc kv => upsert acc kv.1 kv.2)
      (g.originHeads.foldl (fun acc kv => upsert acc kv.1 kv.2) g.remoteRefs)) k = _
  exact alook_foldl_upsert_idem g.originHeads g.remoteRefs k

theorem getCommitByVersion_applyFetch_idem (g : GitState) (v : String) :
    getCommitByVersion (applyFetch (applyFetch g)) v =
      getCommitByVersion (applyFetch g) v := by
  rw [getCommitByVersion, getCommitByVersion, applyFetch_remoteRefs_idem,
      show (applyFetch (applyFetch g)).commits = (applyFetch g).commits from rfl]

/-! ## Shared concrete states for witnesses and counterexamples -/

/-- A small checkout: two unrelated root commits `p` (the tip of branch
`master`) and `b` (the tip of branch `dev`), all oracles succeeding. -/
def demoGit : GitState :=
  { commits := [("p", ⟨"tp", []⟩), ("b", ⟨"tb", []⟩)]
    remoteRefs := [("master", "p"), ("dev", "b")]
    originHeads := [("master", "p"), ("dev", "b")]
    head := "p"
    counter := 0
    shaSupply := fun n => "!" ++ toString n
    fetchOk := true
    pushApplies := true
    writeTreeResult := "wt"
    mergeTreeResult := fun _ _ => some "mt"
    treeEntries := fun _ => [] }

/-- A repository over `demoGit` with a freshly constructed cache. -/
def demoRepo : RepoState := { git := demoGit, cache := Cache.initial }

/-- `demoGit` after the diverged write of the C1 amended witness: the fresh
commit `!0` on top of `p` and the merge commit `!1`. -/
def demoMergedGit : GitState :=
  addCommit (addCommit demoGit "!0" "t1" ["p"]) "!1" "mt" ["!0", "b"]

/-- A checkout about to verify a push that the remote did not apply: the
local head has moved but the remote-tracking ref is stale. -/
def stalePushGit : GitState :=
  { demoGit with head := "new", remoteRefs := [("master", "old")],
                 pushApplies := false }

/-- A cache holding a single file `rootFile`, for the `getFiles` claims. -/
def fileCache : Cache :=
  { commitHash := "h", object := .obj [("rootFile", .num 1)],
    files := [("rootFile", .num 1)] }

/-- The first read of `demoRepo` resolving `master`: its result. -/
def demoReadResult : ReadResult :=
  { commitHash := "p", data := .object (some (.obj [])) }

/-- The first read of `demoRepo` resolving `master`: the state after it. -/
def demoReadState : RepoState :=
  { git := applyFetch demoGit,
    cache := { commitHash := "p", object := .obj [], files := [] } }

/-! ## Claim theorems -/

/-- C7: resolving a version token first tries it as a remote branch
reference, on failure falls back to a direct commit lookup, and when both
fail the operation fails with an error that carries the token. -/
theorem getCommitByVersion_resolution (g : GitState) (v : String) :
    (∀ sha, alook g.remoteRefs v = some sha →
        getCommitByVersion g v = .ok sha) ∧
    (∀ cd, alook g.remoteRefs v = none → alook g.commits v = some cd →
        getCommitByVersion g v = .ok v) ∧
    (alook g.remoteRefs v = none → alook g.commits v = none →
        getCommitByVersion g v =
          .error (.thrown ("Branch or commit not found: " ++ sQuote v))) := by
  refine ⟨fun sha h => ?_, fun cd h1 h2 => ?_, fun h1 h2 => ?_⟩ <;>
    simp [getCommitByVersion, *]

/-- Witness for C7 at a token that is neither a branch nor a commit. -/
theorem getCommitByVersion_resolution_witness :
    alook demoGit.remoteRefs "nope" = none ∧
    alook demoGit.commits "nope" = none ∧
    getCommitByVersion demoGit "nope" =
      .error (.thrown ("Branch or commit not found: " ++ sQuote "nope")) :=
  ⟨rfl, rfl, (getCommitByVersion_resolution demoGit "nope").2.2 rfl rfl⟩

/-- C3: after the push, the local head and the remote-tracking ref of the
pushed branch are re-resolved; whenever the remote-tracking ref resolves, the
write fails with the push-verification error exactly when the two commit
identifiers differ, and succeeds exactly when they are equal. -/
theorem pushHeadToOrigin_verification (g : GitState) (branch r : String)
    (h : alook (postPushState g branch).remoteRefs branch = some r) :
    ((pushHeadToOrigin g branch).2 = some (.thrown "Push to remote failed") ↔
        (postPushState g branch).head ≠ r) ∧
    ((pushHeadToOrigin g branch).2 = none ↔
        (postPushState g branch).head = r) ∧
    (pushHeadToOrigin g branch).1 = postPushState g branch := by
  rw [pushHeadToOrigin]
  simp only [h]
  by_cases he : (postPushState g branch).head = r <;> simp [he]

/-- Witness for C3 at a push the remote did not apply: the identifiers
differ and the operation fails with the verification error. -/
theorem pushHeadToOrigin_verification_witness :
    alook (postPushState stalePushGit "master").remoteRefs "master" =
      some "old" ∧
    (pushHeadToOrigin stalePushGit "master").2 =
      some (.thrown "Push to remote failed") :=
  ⟨rfl,
   (pushHeadToOrigin_verification stalePushGit "master" "old" rfl).1.2
     (by decide)⟩

/-- C5 (amended): an empty prefix returns the entire flat map; a non-empty
prefix returns exactly the flat-map entries whose path starts with the
prefix, keyed by their full paths; a prefix that exactly names a file
therefore returns that file's entry rather than an empty map. -/
theorem getFiles_query (c : Cache) :
    (c.getFiles "" = c.files) ∧
    (∀ pfx, pfx ≠ "" → ∀ k v,
        ((k, v) ∈ c.getFiles pfx ↔
          (k, v) ∈ c.files ∧ jsStartsWith k pfx = true)) ∧
    (∀ k v, k ≠ "" → alook c.files k = some v → (k, v) ∈ c.getFiles k) := by
  refine ⟨by simp [Cache.getFiles], fun pfx hp k v => ?_, fun k v hk hv => ?_⟩
  · simp [Cache.getFiles, hp, List.mem_filter]
  · rw [Cache.getFiles, if_pos hk]
    exact List.mem_filter.2 ⟨alook_mem hv, jsStartsWith_self k⟩

/-- Witness for C5: a file query returns the file's own entry. -/
theorem getFiles_query_witness :
    (("rootFile" : String) ≠ "" ∧
      alook fileCache.files "rootFile" = some (.num 1)) ∧
    ("rootFile", Json.num 1) ∈ fileCache.getFiles "rootFile" :=
  ⟨⟨by decide, rfl⟩,
   (getFiles_query fileCache).2.2 "rootFile" (.num 1) (by decide) rfl⟩

/-- Counterexample for C5 as stated: a prefix that exactly names a file does
not produce an empty map — the file's own entry satisfies `startsWith`. -/
theorem getFiles_file_query_cex :
    fileCache.getFiles "rootFile" = [("rootFile", .num 1)] ∧
    fileCache.getFiles "rootFile" ≠ [] :=
  ⟨rfl, fun h => List.cons_ne_nil _ _ ((rfl :
      fileCache.getFiles "rootFile" = [("rootFile", Json.num 1)]) ▸ h)⟩

/-- C6 (amended): building a snapshot never fails with a path-conflict
error — whenever every entry parses, the build succeeds, even when one
document's store path is a strict prefix of another's. -/
theorem buildData_ok_of_parsed (entries : List RawEntry)
    (h : ∀ e ∈ entries, e.2.isOk = true) :
    ∃ out, buildDataTop entries = .ok out := by
  rw [buildDataTop]
  have aux : ∀ (l : List RawEntry) (o : Json) (fs : List (String × Json)),
      (∀ e ∈ l, e.2.isOk = true) → ∃ out, buildData l o fs = .ok out := by
    intro l
    induction l with
    | nil => intro o fs _; exact ⟨(o, fs), rfl⟩
    | cons e rest ih =>
        intro o fs hl
        match e with
        | (p, .ok v) =>
            exact ih (lset o (splitPath p) v) (upsert fs p v)
              fun e' he' => hl e' (List.mem_cons_of_mem _ he')
        | (p, .error s) =>
            have := hl (p, .error s) (List.mem_cons_self _ _)
            simp [Except.isOk, Except.toBool] at this
  exact aux entries _ _ h

/-- The prefix-colliding tree of the C6 counterexample: documents at store
paths `x` and `x/y`. -/
def collidingRaw : List RawEntry :=
  [("x", .ok (.num 1)), ("x/y", .ok (.num 2))]

/-- Witness for C6 at the prefix-colliding tree. -/
theorem buildData_ok_of_parsed_witness :
    (∀ e ∈ collidingRaw, e.2.isOk = true) ∧
    ∃ out, buildDataTop collidingRaw = .ok out :=
  ⟨by decide, buildData_ok_of_parsed collidingRaw (by decide)⟩

/-- Counterexample for C6 as stated: on a tree where document path `x` is a
strict prefix of document path `x/y`, the build succeeds (so it does not fail
with a path-conflict error); the collision is silently resolved, the flat map
keeping both documents while the nested object keeps only the deeper one. -/
theorem buildData_no_pathConflict_cex :
    buildDataTop collidingRaw =
      .ok (.obj [("x", .obj [("y", .num 2)])],
           [("x", .num 1), ("x/y", .num 2)]) := rfl

/-- C4 (amended): for a commit whose document store paths are pairwise not
prefixes of one another, the built snapshot is mutually consistent: every
flat-map binding is reachable at the corresponding nested path with the same
value, and every value reachable in the nested object lies on the path of
some document (at it, under it, or above it). -/
theorem buildData_consistency (entries : List (String × Json))
    (hpp : pairwiseNoPrefix (entries.map fun e => splitPath e.1) = true) :
    ∀ o fs,
      buildDataTop (entries.map fun e => (e.1, Except.ok e.2)) = .ok (o, fs) →
      (∀ p v, alook fs p = some v → lget o (splitPath p) = some v) ∧
      (∀ ps, ps ≠ [] → lget o ps ≠ none →
        ∃ e ∈ entries, splitPath e.1 <+: ps ∨ ps <+: splitPath e.1) := by
  intro o fs h
  rw [buildDataTop, buildData_parsed] at h
  have ho : entries.foldl objStep (Json.obj []) = o := by
    injection h with h'; exact (congrArg Prod.fst h')
  have hfs : entries.foldl (fun a e => upsert a e.1 e.2) [] = fs := by
    injection h with h'; exact (congrArg Prod.snd h')
  have hpair : List.Pairwise
      (fun a b : String × Json => ¬ splitPath a.1 <+: splitPath b.1 ∧
        ¬ splitPath b.1 <+: splitPath a.1) entries :=
    List.pairwise_map.1 (pairwiseNoPrefix_pairwise hpp)
  have hnodup : (entries.map Prod.fst).Nodup := by
    refine List.pairwise_map.2 (hpair.imp ?_)
    intro a b hab heq
    exact hab.1 (show splitPath a.1 <+: splitPath b.1 from heq ▸ List.prefix_refl _)
  constructor
  · intro p v hp
    rw [← hfs, show entries.foldl (fun a e => upsert a e.1 e.2) [] =
          buildFiles entries from rfl,
        alook_buildFiles_of_nodup hnodup] at hp
    rw [← ho]
    exact lget_foldl_mem entries [] hpair
      (fun e _ => splitPath_ne_nil e.1) p v (alook_mem hp)
  · intro ps hne hsome
    rw [← ho] at hsome
    refine lget_foldl_origin entries (Json.obj []) ps ?_ hsome
    cases hps : ps with
    | nil => exact absurd hps hne
    | cons a b => rfl

/-- The collision-free entries of the C4 witness. -/
def disjointEntries : List (String × Json) :=
  [("a/b", .num 1), ("c", .num 2)]

/-- Witness for C4 on a two-document prefix-free tree. -/
theorem buildData_consistency_witness :
    pairwiseNoPrefix (disjointEntries.map fun e => splitPath e.1) = true ∧
    lget (.obj [("a", .obj [("b", .num 1)]), ("c", .num 2)])
      (splitPath "a/b") = some (.num 1) :=
  ⟨by decide,
   (buildData_consistency disjointEntries (by decide)
      (.obj [("a", .obj [("b", .num 1)]), ("c", .num 2)])
      [("a/b", .num 1), ("c", .num 2)] rfl).1 "a/b" (.num 1) rfl⟩

/-- The colliding parsed entries of the C4 counterexample. -/
def collidingEntries : List (String × Json) :=
  [("a", .num 5), ("a/b", .num 6)]

/-- Counterexample for C4 as stated: when a document's store path `a` is a
prefix of another document's path `a/b`, the flat map binds `a` to its
document but following segment `a` through the nested object reaches the
directory object holding `b` instead. -/
theorem buildData_consistency_cex :
    buildDataTop (collidingEntries.map fun e => (e.1, Except.ok e.2)) =
      .ok (.obj [("a", .obj [("b", .num 6)])],
           [("a", .num 5), ("a/b", .num 6)]) ∧
    alook [("a", Json.num 5), ("a/b", Json.num 6)] "a" = some (.num 5) ∧
    lget (.obj [("a", .obj [("b", .num 6)])]) (splitPath "a") =
      some (.obj [("b", .num 6)]) ∧
    Json.obj [("b", .num 6)] ≠ Json.num 5 :=
  ⟨rfl, rfl, rfl, fun h => Json.noConfusion h⟩

/-- C1 (amended): on a successful `commitAndMerge`, when the update-branch
commit is an ancestor of the freshly created commit the result is that fresh
commit, whose sole parent is the resolved parent commit; otherwise the result
is a merge commit whose first parent is the freshly created commit (itself
having the resolved parent as sole parent) and whose second parent is the
update-branch commit. -/
theorem commitAndMerge_parents (g : GitState)
    (parentSha branchSha treeOid msg : String)
    (hfresh : g.shaSupply g.counter ≠ g.shaSupply (g.counter + 1)) :
    ∀ r g', commitAndMerge g parentSha branchSha treeOid msg = .ok (r, g') →
      (isAncestor (addCommit g (freshSha g) treeOid [parentSha]) branchSha
          (freshSha g) = true →
        r = freshSha g ∧ parentsOf g' r = some [parentSha]) ∧
      (isAncestor (addCommit g (freshSha g) treeOid [parentSha]) branchSha
          (freshSha g) = false →
        parentsOf g' r = some [freshSha g, branchSha] ∧
        parentsOf g' (freshSha g) = some [parentSha]) := by
  intro r g' h
  rw [commitAndMerge] at h
  by_cases ha : isAncestor (addCommit g (freshSha g) treeOid [parentSha])
      branchSha (freshSha g) = true
  · rw [if_pos ha] at h
    injection h with h'
    rw [Prod.mk.injEq] at h'
    obtain ⟨hr, hg'⟩ := h'
    refine ⟨fun _ => ⟨hr.symm, ?_⟩, fun hf => absurd ha (by simp [hf])⟩
    subst hg' hr
    simp [parentsOf, addCommit, alook]
  · rw [if_neg ha] at h
    cases hm : (addCommit g (freshSha g) treeOid [parentSha]).mergeTreeResult
        branchSha (freshSha g) with
    | none => rw [hm] at h; cases h
    | some mt =>
        rw [hm] at h
        injection h with h'
        rw [Prod.mk.injEq] at h'
        obtain ⟨hr, hg'⟩ := h'
        refine ⟨fun ht => absurd ht ha, fun _ => ?_⟩
        have hne : freshSha (addCommit g (freshSha g) treeOid [parentSha]) ≠
            freshSha g := by
          show g.shaSupply (g.counter + 1) ≠ g.shaSupply g.counter
          exact Ne.symm hfresh
        subst hg' hr
        constructor
        · simp [parentsOf, addCommit, alook, freshSha]
        · simp [parentsOf, addCommit, alook, freshSha, hne,
                show (g.shaSupply (g.counter + 1) = g.shaSupply g.counter) =
                  False from eq_false hne]

/-- Witness for C1 at a diverged update branch of `demoGit`. -/
theorem commitAndMerge_parents_witness :
    (demoGit.shaSupply demoGit.counter ≠
        demoGit.shaSupply (demoGit.counter + 1)) ∧
    parentsOf demoMergedGit "!1" = some ["!0", "b"] ∧
    parentsOf demoMergedGit "!0" = some ["p"] :=
  ⟨by decide,
   ((commitAndMerge_parents demoGit "p" "b" "t1" "m" (by decide) "!1"
        demoMergedGit rfl).2 (by decide)).1,
   ((commitAndMerge_parents demoGit "p" "b" "t1" "m" (by decide) "!1"
        demoMergedGit rfl).2 (by decide)).2⟩

/-- Counterexample for C1 as stated: a successful diverged write through
`replacePath` whose resulting commit's first parent is the freshly created
commit `!0`, not the resolved parent commit `p`. -/
theorem replacePath_merge_first_parent_cex :
    (replacePath demoRepo "master" (some "dev") "data").1 = .ok "!1" ∧
    getCommitByVersion demoRepo.git "master" = .ok "p" ∧
    parentsOf (replacePath demoRepo "master" (some "dev") "data").2.1.git
      "!1" = some ["!0", "b"] ∧
    ("!0" : String) ≠ "p" :=
  ⟨rfl, rfl, rfl, by decide⟩

/-- C2 (as a run of the code at the failing input): when `updateBranch` is
not supplied, the update-branch commit is indeed resolved from the parent
version token, but the push interpolates the absent argument into the refspec
`HEAD:refs/heads/undefined`, so at the remote the branch named by the parent
token is not advanced — a branch literally named `undefined` is created at
the new commit instead, and the write still reports success. -/
theorem replacePath_undefined_branch_push :
    (replacePath demoRepo "master" none "data").1 = .ok "!0" ∧
    getCommitForUpdateBranch demoRepo.git (jsOr none "master") = .ok "p" ∧
    Ev.push "HEAD:refs/heads/undefined" ∈
      (replacePath demoRepo "master" none "data").2.2 ∧
    alook (replacePath demoRepo "master" none "data").2.1.git.originHeads
      "master" = some "p" ∧
    alook (replacePath demoRepo "master" none "data").2.1.git.originHeads
      "undefined" = some "!0" :=
  ⟨rfl, rfl, by decide, rfl, rfl⟩

/-- C8 (amended): `getData` fetches from origin before resolving, and a
fetch failure fails the read before any resolution is attempted; the write
path `replacePath`, however, never fetches — it resolves version tokens
against the remote-tracking state left by earlier fetches. -/
theorem fetch_before_resolution :
    (∀ (rst : RepoState) (v p : String) (lf : Bool),
        rst.git.fetchOk = true → ∃ rest,
          (getData rst v p lf).2.2 = [Ev.lock, Ev.fetch, Ev.resolve v] ++ rest) ∧
    (∀ (rst : RepoState) (v p : String) (lf : Bool),
        rst.git.fetchOk = false →
          (getData rst v p lf).1 = .error (.libError "fetch origin") ∧
          Ev.resolve v ∉ (getData rst v p lf).2.2) ∧
    (∀ (rst : RepoState) (pv : String) (ub : Option String) (tp : String),
        Ev.fetch ∉ (replacePath rst pv ub tp).2.2) := by
  refine ⟨fun rst v p lf h => ?_, fun rst v p lf h => ?_,
          fun rst pv ub tp => ?_⟩
  · rw [getData_fetchOk rst v p lf h]
    cases hv : getCommitByVersion (applyFetch rst.git) v with
    | error e => exact ⟨[.unlock], by rw [getDataResolved, hv]; rfl⟩
    | ok sha =>
        exact ⟨(if (rst.cache.update sha
            ((applyFetch rst.git).treeEntries sha)).2 then [Ev.rebuild]
          else []) ++ [Ev.unlock], by rw [getDataResolved, hv]; rfl⟩
  · rw [getData_fetchFail rst v p lf h]
    exact ⟨rfl, by simp⟩
  · rw [replacePath]
    repeat' split
    all_goals simp

/-- Witness for C8: a read of `demoRepo` fetches before it resolves. -/
theorem fetch_before_resolution_witness :
    demoRepo.git.fetchOk = true ∧
    ∃ rest, (getData demoRepo "master" "" false).2.2 =
      [Ev.lock, Ev.fetch, Ev.resolve "master"] ++ rest :=
  ⟨rfl, fetch_before_resolution.1 demoRepo "master" "" false rfl⟩

/-- Counterexample for C8 as stated: a successful write that resolves its
version tokens without ever fetching from origin. -/
theorem replacePath_no_fetch_cex :
    Ev.resolve "master" ∈
      (replacePath demoRepo "master" (some "dev") "data").2.2 ∧
    Ev.fetch ∉ (replacePath demoRepo "master" (some "dev") "data").2.2 ∧
    (replacePath demoRepo "master" (some "dev") "data").1 = .ok "!1" :=
  ⟨by decide, by decide, rfl⟩

/-- C9: a second read for the same resolved commit, with no intervening
write, returns the identical result, leaves the cache untouched, and
performs no snapshot rebuild. -/
theorem getData_idempotent (rst : RepoState) (v p : String) (lf : Bool)
    (r1 : ReadResult) (s1 : RepoState) (t1 : List Ev)
    (h : getData rst v p lf = (.ok r1, s1, t1)) :
    (getData s1 v p lf).1 = .ok r1 ∧
    (getData s1 v p lf).2.1.cache = s1.cache ∧
    Ev.rebuild ∉ (getData s1 v p lf).2.2 := by
  cases hf : rst.git.fetchOk with
  | false =>
      rw [getData_fetchFail rst v p lf hf] at h
      rw [Prod.mk.injEq] at h
      exact absurd h.1 (by simp)
  | true =>
      rw [getData_fetchOk rst v p lf hf] at h
      cases hv : getCommitByVersion (applyFetch rst.git) v with
      | error e =>
          rw [getDataResolved_err rst (applyFetch rst.git) v p lf e hv] at h
          rw [Prod.mk.injEq] at h
          exact absurd h.1 (by simp)
      | ok sha =>
          rw [getDataResolved_ok rst (applyFetch rst.git) v p lf sha hv] at h
          set C := (rst.cache.update sha
            ((applyFetch rst.git).treeEntries sha)).1 with hC
          rw [Prod.mk.injEq, Prod.mk.injEq] at h
          obtain ⟨h1, h2, h3⟩ := h
          injection h1 with h1
          subst h1 h2 h3
          have hCsha : C.commitHash = sha := by
            rw [hC]; exact cacheUpdate_commitHash _ _ _
          have hv2 : getCommitByVersion (applyFetch
              ({ git := applyFetch rst.git, cache := C } : RepoState).git) v =
              .ok sha :=
            (getCommitByVersion_applyFetch_idem rst.git v).trans hv
          rw [getData_fetchOk { git := applyFetch rst.git, cache := C }
                v p lf hf,
              getDataResolved_ok _ _ v p lf sha hv2,
              show ({ git := applyFetch rst.git, cache := C } :
                RepoState).cache = C from rfl,
              cacheUpdate_same C sha _ hCsha]
          exact ⟨rfl, rfl, by simp⟩

/-- Witness for C9: after a first read of `demoRepo` (which rebuilds), the
second read returns the identical result without a rebuild event. -/
theorem getData_idempotent_witness :
    getData demoRepo "master" "" false =
      (.ok demoReadResult, demoReadState,
       [Ev.lock, Ev.fetch, Ev.resolve "master", Ev.rebuild, Ev.unlock]) ∧
    (getData demoReadState "master" "" false).1 = .ok demoReadResult ∧
    Ev.rebuild ∉ (getData demoReadState "master" "" false).2.2 :=
  ⟨rfl,
   (getData_idempotent demoRepo "master" "" false demoReadResult
      demoReadState _ rfl).1,
   (getData_idempotent demoRepo "master" "" false demoReadResult
      demoReadState _ rfl).2.2⟩

/-- C10: `replacePath` never touches the snapshot cache — on every exit
path, successful or failed, the cache after the call is the cache before
it. -/
theorem replacePath_preserves_cache (rst : RepoState) (pv : String)
    (ub : Option String) (tp : String) :
    (replacePath rst pv ub tp).2.1.cache = rst.cache := by
  rw [replacePath]
  repeat' split
  all_goals rfl

end GitJsonApi
